import Mathlib

/-!
Verification of the Hebrew normalization / fuzzy-matching engine
(`hebrew_normalizer.py`) and the total-coverage mapping pass
(`create_complete_bhsa_mapping.py`).

Strings are modelled as lists of Unicode code points (`List Nat`), matching
Python's view of `str` as a sequence of code points.  Python floats are
modelled as rationals (`ℚ`); every numeric literal in the source
(0.9, 0.85, 0.7, ...) is an exact decimal, so rational arithmetic reproduces
the comparisons the source performs.
-/

/-- Model of Python `unicodedata.category(c) == 'Mn'` (nonspacing combining
mark), restricted to the code-point ranges that can occur around Hebrew text:
the general combining-diacritics block and the Hebrew accent/point marks.
This is an external-library predicate (Python's `unicodedata`), not code of
the repository; it agrees with Unicode on the whole Hebrew block
(0x0590-0x05FF) and on the combining-diacritics block.  Every code point it
accepts lies outside the consonant range 0x05D0-0x05EA, exactly as in
Unicode, which is the only property the repository's behaviour depends on:
any character this pass removes would be removed by the final
consonant-range filter anyway. -/
def is_category_Mn (c : Nat) : Bool :=
  decide ((0x0300 ≤ c ∧ c ≤ 0x036F) ∨ (0x0591 ≤ c ∧ c ≤ 0x05BD) ∨ c = 0x05BF ∨
    c = 0x05C1 ∨ c = 0x05C2 ∨ c = 0x05C4 ∨ c = 0x05C5 ∨ c = 0x05C7)

/-- Membership in the source's `HEBREW_POINTS_EXTENDED` list of ranges:
`range(0x05B0, 0x05BD)`, `range(0x05BF, 0x05C3)`, `range(0x05C4, 0x05C6)`,
and the singleton `[0x05C7]` (Python `range` excludes its upper bound). -/
def in_hebrew_points_extended (c : Nat) : Bool :=
  decide ((0x05B0 ≤ c ∧ c < 0x05BD) ∨ (0x05BF ≤ c ∧ c < 0x05C3) ∨
    (0x05C4 ≤ c ∧ c < 0x05C6) ∨ c = 0x05C7)

/-- The per-character predicate of the first loop of `normalize_hebrew`:
a character survives unless it is a nonspacing mark, falls in the extended
Hebrew point ranges, or is qamats qatan 0x05C7 (the source checks 0x05C7
once more after the range check; the repetition is kept for faithfulness). -/
def keepInStripPass (c : Nat) : Bool :=
  !is_category_Mn c && !in_hebrew_points_extended c && !(c == 0x05C7)

/-- Python `str.replace(a, b)` for single-character `a`, `b`: replace every
occurrence of code point `a` by `b`. -/
def replaceChar (a b : Nat) (s : List Nat) : List Nat :=
  s.map fun c => if c = a then b else c

/-- The `FINAL_FORMS` substitution loop of `normalize_hebrew`, applied in the
source's dict insertion order: final Kaf 0x05DA to Kaf 0x05DB, final Mem
0x05DD to Mem 0x05DE, final Nun 0x05DF to Nun 0x05E0, final Pe 0x05E3 to Pe
0x05E4, final Tsadi 0x05E5 to Tsadi 0x05E6. -/
def applyFinalForms (s : List Nat) : List Nat :=
  replaceChar 0x05E5 0x05E6 (replaceChar 0x05E3 0x05E4 (replaceChar 0x05DF 0x05E0
    (replaceChar 0x05DD 0x05DE (replaceChar 0x05DA 0x05DB s))))

/-- The final filter of `normalize_hebrew`: keep only code points in the
Hebrew consonant range `0x05D0 <= c <= 0x05EA`. -/
def isHebrewConsonant (c : Nat) : Bool := decide (0x05D0 ≤ c ∧ c ≤ 0x05EA)

/-- Embedding of `normalize_hebrew` (hebrew_normalizer.py lines 46-94):
empty guard, mark/point stripping, final-form substitution, consonant-range
filter, in that order. -/
def normalize_hebrew (text : List Nat) : List Nat :=
  if text = [] then []
  else (applyFinalForms (text.filter keepInStripPass)).filter isHebrewConsonant

/-- Single-character description of the `FINAL_FORMS` table: map each of the
five final-form code points to its base letter, leave everything else alone.
Used to state the per-character characterization of `normalize_hebrew`. -/
def mapFinal (c : Nat) : Nat :=
  if c = 0x05DA then 0x05DB else if c = 0x05DD then 0x05DE
  else if c = 0x05DF then 0x05E0 else if c = 0x05E3 then 0x05E4
  else if c = 0x05E5 then 0x05E6 else c

/-- Per-character action of the whole normalizer: map final forms to base
letters and keep the result only if it lies in the consonant range. -/
def normChar (c : Nat) : Option Nat :=
  if isHebrewConsonant (mapFinal c) then some (mapFinal c) else none

lemma applyFinalForms_eq_map (s : List Nat) : applyFinalForms s = s.map mapFinal := by
  simp only [applyFinalForms, replaceChar, List.map_map]
  congr 1
  funext c
  simp only [Function.comp, mapFinal]
  split_ifs <;> omega

lemma dropped_not_consonant (c : Nat) (h : keepInStripPass c = false) :
    isHebrewConsonant (mapFinal c) = false := by
  simp only [keepInStripPass, Bool.and_eq_false_iff, Bool.not_eq_false',
    beq_iff_eq, is_category_Mn, in_hebrew_points_extended, decide_eq_true_eq] at h
  simp only [isHebrewConsonant, mapFinal, decide_eq_false_iff_not]
  split_ifs <;> omega

lemma core_eq (text : List Nat) :
    ((text.filter keepInStripPass).map mapFinal).filter isHebrewConsonant =
      text.filterMap normChar := by
  induction text with
  | nil => simp
  | cons c rest ih =>
    cases hk : keepInStripPass c with
    | false =>
      have hnc : isHebrewConsonant (mapFinal c) = false := dropped_not_consonant c hk
      simp [List.filter_cons, hk, List.filterMap_cons, normChar, hnc, ih]
    | true =>
      cases hc : isHebrewConsonant (mapFinal c) <;>
        simp [List.filter_cons, hk, List.filterMap_cons, normChar, hc, ih]

lemma normalize_eq_filterMap (text : List Nat) :
    normalize_hebrew text = text.filterMap normChar := by
  unfold normalize_hebrew
  split
  · rename_i h; subst h; simp
  · rw [applyFinalForms_eq_map, core_eq]

lemma mapFinal_not_final (c : Nat) :
    mapFinal c ≠ 0x05DA ∧ mapFinal c ≠ 0x05DD ∧ mapFinal c ≠ 0x05DF ∧
      mapFinal c ≠ 0x05E3 ∧ mapFinal c ≠ 0x05E5 := by
  unfold mapFinal
  split_ifs <;> omega

lemma mapFinal_of_not_final (c : Nat)
    (h : c ≠ 0x05DA ∧ c ≠ 0x05DD ∧ c ≠ 0x05DF ∧ c ≠ 0x05E3 ∧ c ≠ 0x05E5) :
    mapFinal c = c := by
  unfold mapFinal
  split_ifs <;> omega

lemma isHebrewConsonant_mapFinal (c : Nat) :
    isHebrewConsonant (mapFinal c) = isHebrewConsonant c := by
  simp only [isHebrewConsonant, mapFinal, decide_eq_decide]
  split_ifs <;> omega

lemma mem_normalize {c : Nat} {text : List Nat} (h : c ∈ normalize_hebrew text) :
    (0x05D0 ≤ c ∧ c ≤ 0x05EA) ∧ c ≠ 0x05DA ∧ c ≠ 0x05DD ∧ c ≠ 0x05DF ∧
      c ≠ 0x05E3 ∧ c ≠ 0x05E5 := by
  rw [normalize_eq_filterMap, List.mem_filterMap] at h
  obtain ⟨d, -, hd⟩ := h
  unfold normChar at hd
  split_ifs at hd with hc
  injection hd with hd
  subst hd
  simp only [isHebrewConsonant, decide_eq_true_eq] at hc
  exact ⟨hc, mapFinal_not_final d⟩

lemma consonant_keep {c : Nat} (h : 0x05D0 ≤ c ∧ c ≤ 0x05EA) :
    keepInStripPass c = true := by
  simp only [keepInStripPass, Bool.and_eq_true, Bool.not_eq_true',
    beq_eq_false_iff_ne, ne_eq, is_category_Mn, in_hebrew_points_extended,
    decide_eq_false_iff_not]
  omega

lemma normalize_of_all_consonant {l : List Nat}
    (h : ∀ c ∈ l, (0x05D0 ≤ c ∧ c ≤ 0x05EA) ∧ c ≠ 0x05DA ∧ c ≠ 0x05DD ∧
      c ≠ 0x05DF ∧ c ≠ 0x05E3 ∧ c ≠ 0x05E5) :
    normalize_hebrew l = l := by
  rw [normalize_eq_filterMap]
  induction l with
  | nil => simp
  | cons c rest ih =>
    have hc := h c (List.mem_cons_self c rest)
    have hm : mapFinal c = c := mapFinal_of_not_final c hc.2
    have hnc : normChar c = some c := by
      simp only [normChar, hm, isHebrewConsonant, decide_eq_true_eq]
      rw [if_pos hc.1]
    rw [List.filterMap_cons, hnc, ih fun d hd => h d (List.mem_cons_of_mem c hd)]

/-- C3: normalization is idempotent: normalizing an already-normalized string
changes nothing, for every input string. -/
theorem normalize_hebrew_idempotent (x : List Nat) :
    normalize_hebrew (normalize_hebrew x) = normalize_hebrew x :=
  normalize_of_all_consonant fun _ hc => mem_normalize hc

lemma normalize_eq_nil_of_no_hebrew {text : List Nat}
    (h : ∀ c ∈ text, ¬(0x05D0 ≤ c ∧ c ≤ 0x05EA)) : normalize_hebrew text = [] := by
  rw [normalize_eq_filterMap, List.filterMap_eq_nil_iff]
  intro c hc
  have hrange := h c hc
  simp only [normChar, isHebrewConsonant_mapFinal]
  simp only [isHebrewConsonant, decide_eq_true_eq]
  rw [if_neg hrange]

/-- C4: every code point of the normalized form lies in the consonant range
0x05D0-0x05EA and is none of the five final-form code points; the output is
exactly the input processed code point by code point in order (final forms
mapped to base letters, everything whose image falls outside the consonant
range dropped), so the relative order of surviving letters is preserved; and
an input with no Hebrew letters normalizes to the empty string. -/
theorem normalize_hebrew_alphabet (text : List Nat) :
    (∀ c ∈ normalize_hebrew text,
      (0x05D0 ≤ c ∧ c ≤ 0x05EA) ∧ c ≠ 0x05DA ∧ c ≠ 0x05DD ∧ c ≠ 0x05DF ∧
        c ≠ 0x05E3 ∧ c ≠ 0x05E5) ∧
    normalize_hebrew text =
      text.filterMap (fun c =>
        if 0x05D0 ≤ mapFinal c ∧ mapFinal c ≤ 0x05EA then some (mapFinal c) else none) ∧
    ((∀ c ∈ text, ¬(0x05D0 ≤ c ∧ c ≤ 0x05EA)) → normalize_hebrew text = []) := by
  refine ⟨fun _ hc => mem_normalize hc, ?_, fun h => normalize_eq_nil_of_no_hebrew h⟩
  rw [normalize_eq_filterMap]
  congr 1
  funext c
  simp [normChar, isHebrewConsonant]

/-- Witness for C4 at concrete inputs: a word with a vowel point and a final
Kaf normalizes to base letters only, and a Latin-only string normalizes to
the empty string (discharging the no-Hebrew-letters hypothesis). -/
theorem normalize_hebrew_alphabet_witness :
    normalize_hebrew [0x05DE, 0x05B6, 0x05DA] = [0x05DE, 0x05DB] ∧
    normalize_hebrew [0x61, 0x62] = [] := by
  constructor
  · decide
  · exact (normalize_hebrew_alphabet [0x61, 0x62]).2.2 (by decide)

/-- Textbook Levenshtein edit distance (single-character insert, delete,
substitute, uniform cost 1, no transpositions), by the standard recurrence.
This is the specification-side definition that the source's dynamic-programming
implementation is proved to compute. -/
def lev : List Nat → List Nat → Nat
  | [], ys => ys.length
  | _ :: xs, [] => xs.length + 1
  | x :: xs, y :: ys =>
      min (min (lev xs (y :: ys) + 1) (lev (x :: xs) ys + 1))
        (lev xs ys + (if x = y then 0 else 1))
termination_by a b => a.length + b.length

lemma lev_nil_left (ys : List Nat) : lev [] ys = ys.length := by simp [lev]

lemma lev_nil_right (xs : List Nat) : lev xs [] = xs.length := by
  cases xs <;> simp [lev]

lemma lev_cons_cons (x y : Nat) (xs ys : List Nat) :
    lev (x :: xs) (y :: ys) =
      min (min (lev xs (y :: ys) + 1) (lev (x :: xs) ys + 1))
        (lev xs ys + (if x = y then 0 else 1)) := by
  rw [lev]

/-- Edit scripts: `Edits n xs ys` holds when `xs` can be turned into `ys`
with `n` single-character edits (substitutions may be trivial, so `Edits` is
closed upward in cost along any alignment).  `lev xs ys` is the least such
`n`, which makes this the textbook notion of edit distance. -/
inductive Edits : Nat → List Nat → List Nat → Prop where
  | nil : Edits 0 [] []
  | keep : ∀ {n x xs ys}, Edits n xs ys → Edits n (x :: xs) (x :: ys)
  | subst : ∀ {n x y xs ys}, Edits n xs ys → Edits (n + 1) (x :: xs) (y :: ys)
  | del : ∀ {n x xs ys}, Edits n xs ys → Edits (n + 1) (x :: xs) ys
  | ins : ∀ {n y xs ys}, Edits n xs ys → Edits (n + 1) xs (y :: ys)

lemma lev_cons_le (x : Nat) (xs ys : List Nat) : lev (x :: xs) ys ≤ lev xs ys + 1 := by
  cases ys with
  | nil => simp [lev_nil_right]
  | cons y ys => rw [lev_cons_cons]; omega

lemma lev_le_cons (xs : List Nat) (y : Nat) (ys : List Nat) :
    lev xs (y :: ys) ≤ lev xs ys + 1 := by
  cases xs with
  | nil => simp [lev_nil_left]
  | cons x xs => rw [lev_cons_cons]; omega

lemma lev_le_of_edits {n : Nat} {xs ys : List Nat} (h : Edits n xs ys) :
    lev xs ys ≤ n := by
  induction h with
  | nil => simp [lev_nil_left]
  | keep h ih =>
    rw [lev_cons_cons]
    split_ifs with hxx
    · omega
    · exact absurd rfl hxx
  | subst h ih => rw [lev_cons_cons]; split_ifs <;> omega
  | del h ih => exact le_trans (lev_cons_le _ _ _) (by omega)
  | ins h ih => exact le_trans (lev_le_cons _ _ _) (by omega)

lemma edits_nil_left : ∀ ys : List Nat, Edits ys.length [] ys
  | [] => .nil
  | _ :: ys => .ins (edits_nil_left ys)

lemma edits_nil_right : ∀ xs : List Nat, Edits xs.length xs []
  | [] => .nil
  | _ :: xs => .del (edits_nil_right xs)

lemma edits_lev_fuel : ∀ (fuel : Nat) (xs ys : List Nat),
    xs.length + ys.length ≤ fuel → Edits (lev xs ys) xs ys := by
  intro fuel
  induction fuel with
  | zero =>
    intro xs ys h
    cases xs <;> cases ys <;> simp_all
    rw [lev_nil_left]
    exact .nil
  | succ fuel ih =>
    intro xs ys h
    match xs, ys with
    | [], ys => rw [lev_nil_left]; exact edits_nil_left ys
    | x :: xs, [] => rw [lev_nil_right]; exact edits_nil_right _
    | x :: xs, y :: ys =>
      rw [lev_cons_cons]
      have h1 : Edits (lev xs (y :: ys)) xs (y :: ys) :=
        ih xs (y :: ys) (by simp only [List.length_cons] at h ⊢; omega)
      have h2 : Edits (lev (x :: xs) ys) (x :: xs) ys :=
        ih (x :: xs) ys (by simp only [List.length_cons] at h ⊢; omega)
      have h3 : Edits (lev xs ys) xs ys :=
        ih xs ys (by simp only [List.length_cons] at h; omega)
      rcases min_choice (min (lev xs (y :: ys) + 1) (lev (x :: xs) ys + 1))
          (lev xs ys + (if x = y then 0 else 1)) with hmin | hmin <;> rw [hmin]
      · rcases min_choice (lev xs (y :: ys) + 1) (lev (x :: xs) ys + 1) with h' | h' <;>
          rw [h']
        · exact .del h1
        · exact .ins h2
      · by_cases hxy : x = y
        · subst hxy
          simp only [if_pos rfl, Nat.add_zero]
          exact .keep h3
        · rw [if_neg hxy]
          exact .subst h3

lemma edits_of_lev (xs ys : List Nat) : Edits (lev xs ys) xs ys :=
  edits_lev_fuel (xs.length + ys.length) xs ys le_rfl

lemma edits_symm {n : Nat} {xs ys : List Nat} (h : Edits n xs ys) : Edits n ys xs := by
  induction h with
  | nil => exact .nil
  | keep _ ih => exact .keep ih
  | subst _ ih => exact .subst ih
  | del _ ih => exact .ins ih
  | ins _ ih => exact .del ih

lemma lev_comm (xs ys : List Nat) : lev xs ys = lev ys xs :=
  le_antisymm (lev_le_of_edits (edits_symm (edits_of_lev ys xs)))
    (lev_le_of_edits (edits_symm (edits_of_lev xs ys)))

lemma edits_snoc_keep {n : Nat} {xs ys : List Nat} (a : Nat) (h : Edits n xs ys) :
    Edits n (xs ++ [a]) (ys ++ [a]) := by
  induction h with
  | nil => exact .keep .nil
  | keep _ ih => exact .keep ih
  | subst _ ih => exact .subst ih
  | del _ ih => exact .del ih
  | ins _ ih => exact .ins ih

lemma edits_snoc_subst {n : Nat} {xs ys : List Nat} (a b : Nat) (h : Edits n xs ys) :
    Edits (n + 1) (xs ++ [a]) (ys ++ [b]) := by
  induction h with
  | nil => exact .subst .nil
  | keep _ ih => exact .keep ih
  | subst _ ih => exact .subst ih
  | del _ ih => exact .del ih
  | ins _ ih => exact .ins ih

lemma edits_snoc_del {n : Nat} {xs ys : List Nat} (a : Nat) (h : Edits n xs ys) :
    Edits (n + 1) (xs ++ [a]) ys := by
  induction h with
  | nil => exact .del .nil
  | keep _ ih => exact .keep ih
  | subst _ ih => exact .subst ih
  | del _ ih => exact .del ih
  | ins _ ih => exact .ins ih

lemma edits_snoc_ins {n : Nat} {xs ys : List Nat} (b : Nat) (h : Edits n xs ys) :
    Edits (n + 1) xs (ys ++ [b]) := by
  induction h with
  | nil => exact .ins .nil
  | keep _ ih => exact .keep ih
  | subst _ ih => exact .subst ih
  | del _ ih => exact .del ih
  | ins _ ih => exact .ins ih

lemma edits_reverse {n : Nat} {xs ys : List Nat} (h : Edits n xs ys) :
    Edits n xs.reverse ys.reverse := by
  induction h with
  | nil => simpa using Edits.nil
  | keep _ ih => simp only [List.reverse_cons]; exact edits_snoc_keep _ ih
  | subst _ ih => simp only [List.reverse_cons]; exact edits_snoc_subst _ _ ih
  | del _ ih => simp only [List.reverse_cons]; exact edits_snoc_del _ ih
  | ins _ ih => simp only [List.reverse_cons]; exact edits_snoc_ins _ ih

lemma lev_reverse (xs ys : List Nat) : lev xs.reverse ys.reverse = lev xs ys := by
  apply le_antisymm
  · exact lev_le_of_edits (edits_reverse (edits_of_lev xs ys))
  · have h := lev_le_of_edits (edits_reverse (edits_of_lev xs.reverse ys.reverse))
    simpa using h

lemma edits_trans_fuel : ∀ (fuel : Nat) (m n : Nat) (xs ys zs : List Nat),
    xs.length + ys.length + zs.length ≤ fuel →
    Edits m xs ys → Edits n ys zs → ∃ k, k ≤ m + n ∧ Edits k xs zs := by
  intro fuel
  induction fuel with
  | zero =>
    intro m n xs ys zs hf e1 e2
    cases xs <;> cases ys <;> cases zs <;> simp_all
    exact ⟨0, Nat.zero_le _, .nil⟩
  | succ fuel ih =>
    intro m n xs ys zs hf e1 e2
    cases e2 with
    | nil => exact ⟨m, by omega, e1⟩
    | @ins n' z ys₀ zs₁ e2' =>
      obtain ⟨k, hk, e⟩ := ih m n' xs ys zs₁
        (by simp only [List.length_cons] at hf; omega) e1 e2'
      exact ⟨k + 1, by omega, .ins e⟩
    | @keep _ y ys₁ zs₁ e2' =>
      cases e1 with
      | @keep _ _ xs₁ _ e1' =>
        obtain ⟨k, hk, e⟩ := ih m n xs₁ ys₁ zs₁
          (by simp only [List.length_cons] at hf; omega) e1' e2'
        exact ⟨k, by omega, .keep e⟩
      | @subst m' x₀ _ xs₁ _ e1' =>
        obtain ⟨k, hk, e⟩ := ih m' n xs₁ ys₁ zs₁
          (by simp only [List.length_cons] at hf; omega) e1' e2'
        exact ⟨k + 1, by omega, .subst e⟩
      | @del m' x₀ xs₁ _ e1' =>
        obtain ⟨k, hk, e⟩ := ih m' n xs₁ (y :: ys₁) (y :: zs₁)
          (by simp only [List.length_cons] at hf ⊢; omega) e1' (Edits.keep e2')
        exact ⟨k + 1, by omega, .del e⟩
      | @ins m' _ _ _ e1' =>
        obtain ⟨k, hk, e⟩ := ih m' n xs ys₁ zs₁
          (by simp only [List.length_cons] at hf; omega) e1' e2'
        exact ⟨k + 1, by omega, .ins e⟩
    | @subst n' y z ys₁ zs₁ e2' =>
      cases e1 with
      | @keep _ _ xs₁ _ e1' =>
        obtain ⟨k, hk, e⟩ := ih m n' xs₁ ys₁ zs₁
          (by simp only [List.length_cons] at hf; omega) e1' e2'
        exact ⟨k + 1, by omega, .subst e⟩
      | @subst m' x₀ _ xs₁ _ e1' =>
        obtain ⟨k, hk, e⟩ := ih m' n' xs₁ ys₁ zs₁
          (by simp only [List.length_cons] at hf; omega) e1' e2'
        exact ⟨k + 1, by omega, .subst e⟩
      | @del m' x₀ xs₁ _ e1' =>
        obtain ⟨k, hk, e⟩ := ih m' (n' + 1) xs₁ (y :: ys₁) (z :: zs₁)
          (by simp only [List.length_cons] at hf ⊢; omega) e1' (Edits.subst e2')
        exact ⟨k + 1, by omega, .del e⟩
      | @ins m' _ _ _ e1' =>
        obtain ⟨k, hk, e⟩ := ih m' n' xs ys₁ zs₁
          (by simp only [List.length_cons] at hf; omega) e1' e2'
        exact ⟨k + 1, by omega, .ins e⟩
    | @del n' y ys₁ zs₀ e2' =>
      cases e1 with
      | @keep _ _ xs₁ _ e1' =>
        obtain ⟨k, hk, e⟩ := ih m n' xs₁ ys₁ zs
          (by simp only [List.length_cons] at hf; omega) e1' e2'
        exact ⟨k + 1, by omega, .del e⟩
      | @subst m' x₀ _ xs₁ _ e1' =>
        obtain ⟨k, hk, e⟩ := ih m' n' xs₁ ys₁ zs
          (by simp only [List.length_cons] at hf; omega) e1' e2'
        exact ⟨k + 1, by omega, .del e⟩
      | @del m' x₀ xs₁ _ e1' =>
        obtain ⟨k, hk, e⟩ := ih m' (n' + 1) xs₁ (y :: ys₁) zs
          (by simp only [List.length_cons] at hf ⊢; omega) e1' (Edits.del e2')
        exact ⟨k + 1, by omega, .del e⟩
      | @ins m' _ _ _ e1' =>
        obtain ⟨k, hk, e⟩ := ih m' n' xs ys₁ zs
          (by simp only [List.length_cons] at hf; omega) e1' e2'
        exact ⟨k, by omega, e⟩

lemma lev_triangle (a b c : List Nat) : lev a c ≤ lev a b + lev b c := by
  obtain ⟨k, hk, e⟩ := edits_trans_fuel (a.length + b.length + c.length)
    (lev a b) (lev b c) a b c le_rfl (edits_of_lev a b) (edits_of_lev b c)
  exact le_trans (lev_le_of_edits e) hk

lemma lev_self (xs : List Nat) : lev xs xs = 0 := by
  induction xs with
  | nil => simp [lev_nil_left]
  | cons x xs ih =>
    rw [lev_cons_cons]
    split_ifs with hxx
    · omega
    · exact absurd rfl hxx

lemma lev_le_max_fuel : ∀ (fuel : Nat) (xs ys : List Nat),
    xs.length + ys.length ≤ fuel → lev xs ys ≤ max xs.length ys.length := by
  intro fuel
  induction fuel with
  | zero =>
    intro xs ys h
    cases xs <;> cases ys <;> simp_all [lev_nil_left]
  | succ fuel ih =>
    intro xs ys h
    match xs, ys with
    | [], ys => rw [lev_nil_left]; simp
    | x :: xs, [] => rw [lev_nil_right]; simp
    | x :: xs, y :: ys =>
      rw [lev_cons_cons]
      have h3 := ih xs ys (by simp only [List.length_cons] at h; omega)
      simp only [List.length_cons]
      split_ifs <;> omega

lemma lev_le_max (xs ys : List Nat) : lev xs ys ≤ max xs.length ys.length :=
  lev_le_max_fuel (xs.length + ys.length) xs ys le_rfl

lemma lev_snoc_snoc (xs ys : List Nat) (a b : Nat) :
    lev (xs ++ [a]) (ys ++ [b]) =
      min (min (lev xs (ys ++ [b]) + 1) (lev (xs ++ [a]) ys + 1))
        (lev xs ys + (if a = b then 0 else 1)) := by
  have h1 : lev (xs ++ [a]) (ys ++ [b]) = lev (a :: xs.reverse) (b :: ys.reverse) := by
    rw [← lev_reverse (xs ++ [a]) (ys ++ [b])]
    simp [List.reverse_append]
  have e1 : lev xs.reverse (b :: ys.reverse) = lev xs (ys ++ [b]) := by
    have h := lev_reverse xs (ys ++ [b])
    simpa [List.reverse_append] using h
  have e2 : lev (a :: xs.reverse) ys.reverse = lev (xs ++ [a]) ys := by
    have h := lev_reverse (xs ++ [a]) ys
    simpa [List.reverse_append] using h
  have e3 : lev xs.reverse ys.reverse = lev xs ys := lev_reverse xs ys
  rw [h1, lev_cons_cons, e1, e2, e3]

/-- Inner loop of the source's `levenshtein_distance` (lines 143-148): build
the tail of `current_row` from left to right.  `prevj` is `previous_row[j]`,
`curj` is the last element appended to `current_row`, the third argument is
`previous_row[j+1:]`, the fourth is the remaining suffix of `s2`. -/
def rowLoop (c1 : Nat) : Nat → Nat → List Nat → List Nat → List Nat
  | _, _, _, [] => []
  | _, _, [], _ :: _ => []
  | prevj, curj, pnext :: prest, c2 :: s2rest =>
      let v := min (pnext + 1) (min (curj + 1) (prevj + (if c1 = c2 then 0 else 1)))
      v :: rowLoop c1 pnext v prest s2rest

/-- Outer loop of the source's `levenshtein_distance` (lines 141-149): for
each character of `s1` replace `previous_row` by `current_row`, where
`current_row` starts with `i + 1`. -/
def outerLoop (s2 : List Nat) : List Nat → Nat → List Nat → List Nat
  | [], _, prev => prev
  | c1 :: s1rest, i, prev =>
      outerLoop s2 s1rest (i + 1)
        ((i + 1) :: (match prev with
          | p :: ps => rowLoop c1 p (i + 1) ps s2
          | [] => []))

/-- Body of the source's `levenshtein_distance` after the operand swap:
return `len(s1)` when `s2` is empty, otherwise run the dynamic program
starting from `previous_row = range(len(s2) + 1)` and return the last
element of the final row. -/
def levenshtein_core (s1 s2 : List Nat) : Nat :=
  if s2.length = 0 then s1.length
  else (outerLoop s2 s1 0 (List.range (s2.length + 1))).getLastD 0

/-- Embedding of `levenshtein_distance` (hebrew_normalizer.py lines 123-151).
The source's `if len(s1) < len(s2): return levenshtein_distance(s2, s1)` is a
single self-call whose guard is false on the recursive invocation, so it is
unfolded here into one swap followed by the loop body. -/
def levenshtein_distance (s1 s2 : List Nat) : Nat :=
  if s1.length < s2.length then levenshtein_core s2 s1 else levenshtein_core s1 s2

/-- Row of prefix distances: `prefixRow xs base rest` lists
`lev xs (base ++ rest.take 1), ..., lev xs (base ++ rest)`, the invariant
content of the DP rows. -/
def prefixRow (xs : List Nat) : List Nat → List Nat → List Nat
  | _, [] => []
  | base, c2 :: rest => lev xs (base ++ [c2]) :: prefixRow xs (base ++ [c2]) rest

lemma rowLoop_spec (c1 : Nat) (xs : List Nat) : ∀ (rest base : List Nat),
    rowLoop c1 (lev xs base) (lev (xs ++ [c1]) base) (prefixRow xs base rest) rest =
      prefixRow (xs ++ [c1]) base rest := by
  intro rest
  induction rest with
  | nil => intro base; rfl
  | cons c2 rest ih =>
    intro base
    show rowLoop c1 (lev xs base) (lev (xs ++ [c1]) base)
        (lev xs (base ++ [c2]) :: prefixRow xs (base ++ [c2]) rest) (c2 :: rest) =
      lev (xs ++ [c1]) (base ++ [c2]) :: prefixRow (xs ++ [c1]) (base ++ [c2]) rest
    have hv : min (lev xs (base ++ [c2]) + 1)
        (min (lev (xs ++ [c1]) base + 1) (lev xs base + (if c1 = c2 then 0 else 1))) =
        lev (xs ++ [c1]) (base ++ [c2]) := by
      rw [lev_snoc_snoc, min_assoc]
    simp only [rowLoop]
    rw [hv, ih (base ++ [c2])]

lemma outerLoop_spec (s2 : List Nat) : ∀ (s1rest xs : List Nat),
    outerLoop s2 s1rest xs.length (xs.length :: prefixRow xs [] s2) =
      (xs ++ s1rest).length :: prefixRow (xs ++ s1rest) [] s2 := by
  intro s1rest
  induction s1rest with
  | nil => intro xs; simp [outerLoop]
  | cons c1 rest ih =>
    intro xs
    simp only [outerLoop]
    have hrow : rowLoop c1 xs.length (xs.length + 1) (prefixRow xs [] s2) s2 =
        prefixRow (xs ++ [c1]) [] s2 := by
      have h0 : lev xs [] = xs.length := lev_nil_right xs
      have h1 : lev (xs ++ [c1]) [] = xs.length + 1 := by
        rw [lev_nil_right]; simp
      calc rowLoop c1 xs.length (xs.length + 1) (prefixRow xs [] s2) s2
          = rowLoop c1 (lev xs []) (lev (xs ++ [c1]) []) (prefixRow xs [] s2) s2 := by
            rw [h0, h1]
        _ = prefixRow (xs ++ [c1]) [] s2 := rowLoop_spec c1 xs s2 []
    rw [hrow]
    have hlen : xs.length + 1 = (xs ++ [c1]).length := by simp
    rw [hlen]
    have hih := ih (xs ++ [c1])
    rw [hih]
    simp

lemma prefixRow_nil_left : ∀ (rest base : List Nat),
    prefixRow [] base rest = (List.range rest.length).map (fun k => base.length + (k + 1)) := by
  intro rest
  induction rest with
  | nil => intro base; rfl
  | cons c2 rest ih =>
    intro base
    show lev [] (base ++ [c2]) :: prefixRow [] (base ++ [c2]) rest = _
    rw [lev_nil_left, ih (base ++ [c2])]
    simp only [List.length_cons, List.range_succ_eq_map, List.map_cons, List.map_map,
      List.length_append, List.length_nil]
    congr 1
    apply List.map_congr_left
    intro a _
    simp only [Function.comp_apply]
    omega

lemma getLastD_prefixRow (xs : List Nat) : ∀ (rest base : List Nat) (c2 d : Nat),
    (prefixRow xs base (c2 :: rest)).getLastD d = lev xs (base ++ c2 :: rest) := by
  intro rest
  induction rest with
  | nil => intro base c2 d; rfl
  | cons c3 rest ih =>
    intro base c2 d
    show (lev xs (base ++ [c2]) :: prefixRow xs (base ++ [c2]) (c3 :: rest)).getLastD d = _
    rw [List.getLastD_cons, ih (base ++ [c2]) c3 _]
    congr 1
    simp

lemma range_succ_eq_prefixRow (s2 : List Nat) :
    List.range (s2.length + 1) = 0 :: prefixRow [] [] s2 := by
  rw [prefixRow_nil_left s2 [], List.range_succ_eq_map]
  congr 1
  apply List.map_congr_left
  intro a _
  simp

lemma levenshtein_core_eq (s1 s2 : List Nat) : levenshtein_core s1 s2 = lev s1 s2 := by
  unfold levenshtein_core
  split
  · rename_i h
    rw [List.length_eq_zero] at h
    subst h
    rw [lev_nil_right]
  · rename_i h
    match s2, h with
    | c2 :: s2', h =>
      rw [range_succ_eq_prefixRow]
      have hspec := outerLoop_spec (c2 :: s2') s1 []
      simp only [List.length_nil, List.nil_append] at hspec
      rw [hspec, List.getLastD_cons, getLastD_prefixRow s1 s2' [] c2 s1.length]
      simp

lemma levenshtein_distance_eq (s1 s2 : List Nat) : levenshtein_distance s1 s2 = lev s1 s2 := by
  unfold levenshtein_distance
  split
  · rw [levenshtein_core_eq, lev_comm]
  · rw [levenshtein_core_eq]

/-- C5: the source's rolling-row dynamic program computes exactly the
textbook Levenshtein distance `lev` (single-character insert/delete/
substitute, uniform cost 1, no transpositions); the computed value is
achievable by an edit script; and the claimed bounds hold:
distance of a string to itself is 0, distance to the empty string is the
length, and the triangle inequality holds. -/
theorem levenshtein_distance_correct (a b c : List Nat) :
    levenshtein_distance a b = lev a b ∧
    Edits (levenshtein_distance a b) a b ∧
    (∀ n, Edits n a b → levenshtein_distance a b ≤ n) ∧
    levenshtein_distance a a = 0 ∧
    levenshtein_distance a [] = a.length ∧
    levenshtein_distance a c ≤ levenshtein_distance a b + levenshtein_distance b c := by
  refine ⟨levenshtein_distance_eq a b, ?_, ?_, ?_, ?_, ?_⟩
  · rw [levenshtein_distance_eq]; exact edits_of_lev a b
  · intro n hn; rw [levenshtein_distance_eq]; exact lev_le_of_edits hn
  · rw [levenshtein_distance_eq]; exact lev_self a
  · rw [levenshtein_distance_eq]; exact lev_nil_right a
  · rw [levenshtein_distance_eq, levenshtein_distance_eq, levenshtein_distance_eq]
    exact lev_triangle a b c

/-- Witness for C5: the minimality conjunct applied at a concrete input,
with the edit-script hypothesis discharged by an explicit one-substitution
script. -/
theorem levenshtein_distance_correct_witness :
    levenshtein_distance [0x05D0] [0x05D1] ≤ 1 :=
  (levenshtein_distance_correct [0x05D0] [0x05D1] []).2.2.1 1 (Edits.subst Edits.nil)

lemma levenshtein_distance_comm (a b : List Nat) :
    levenshtein_distance a b = levenshtein_distance b a := by
  rw [levenshtein_distance_eq, levenshtein_distance_eq, lev_comm]

/-- Embedding of Python `re.sub` for a pattern of two identical copies of `c`
replaced by one copy: `re.sub` scans left to right replacing non-overlapping
matches, so each adjacent pair of copies of `c` collapses to one and a run
of `n` copies becomes `(n + 1) / 2` copies. -/
def collapseDoubled (c : Nat) : List Nat → List Nat
  | [] => []
  | [a] => [a]
  | a :: b :: rest =>
      if a = c ∧ b = c then c :: collapseDoubled c rest
      else a :: collapseDoubled c (b :: rest)

/-- Embedding of `remove_matres_lectionis` (hebrew_normalizer.py lines
97-120): collapse doubled vav 0x05D5 over the whole string, then doubled yod
0x05D9, in the source's order. -/
def remove_matres_lectionis (text : List Nat) : List Nat :=
  collapseDoubled 0x05D9 (collapseDoubled 0x05D5 text)

/-- Embedding of `compare_hebrew` (hebrew_normalizer.py lines 154-221), with
Python floats modelled as rationals.  Defaults mirror the source:
`fuzzy=True`, `weight_exact=1.0`, `weight_consonantal=0.9`. -/
def compare_hebrew (text1 text2 : List Nat) (fuzzy : Bool := true)
    (weight_exact : ℚ := 1) (weight_consonantal : ℚ := 9/10) : ℚ :=
  if text1 = [] ∨ text2 = [] then 0
  else if text1 = text2 then weight_exact
  else
    let norm1 := normalize_hebrew text1
    let norm2 := normalize_hebrew text2
    if norm1 = norm2 then weight_consonantal
    else if fuzzy = false then 0
    else
      let max_len := max norm1.length norm2.length
      if max_len = 0 then 0
      else
        let similarity : ℚ := 1 - (levenshtein_distance norm1 norm2 : ℚ) / (max_len : ℚ)
        if similarity < 9/10 then
          let norm1_no_ml := remove_matres_lectionis norm1
          let norm2_no_ml := remove_matres_lectionis norm2
          if norm1_no_ml = norm2_no_ml ∧ 0 < norm1_no_ml.length then 85/100
          else similarity * (7/10)
        else similarity * (7/10)

/-- C1: the first four scoring tiers, with the default weights, in order of
precedence: empty input gives 0 (even when both inputs are empty, hence
identical); identical raw strings give 1; distinct raw strings with equal
normalized forms give exactly 9/10; and with fuzzy matching disabled any
remaining pair gives exactly 0. -/
theorem compare_hebrew_tiers (text1 text2 : List Nat) (fuzzy : Bool) :
    ((text1 = [] ∨ text2 = []) → compare_hebrew text1 text2 fuzzy = 0) ∧
    (text1 ≠ [] → text2 ≠ [] → text1 = text2 → compare_hebrew text1 text2 fuzzy = 1) ∧
    (text1 ≠ [] → text2 ≠ [] → text1 ≠ text2 →
      normalize_hebrew text1 = normalize_hebrew text2 →
      compare_hebrew text1 text2 fuzzy = 9/10) ∧
    (text1 ≠ [] → text2 ≠ [] → text1 ≠ text2 →
      normalize_hebrew text1 ≠ normalize_hebrew text2 →
      compare_hebrew text1 text2 false = 0) := by
  refine ⟨?_, ?_, ?_, ?_⟩
  · intro h
    simp only [compare_hebrew]
    rw [if_pos h]
  · intro h1 h2 h3
    simp only [compare_hebrew]
    rw [if_neg (not_or.mpr ⟨h1, h2⟩), if_pos h3]
  · intro h1 h2 h3 h4
    simp only [compare_hebrew]
    rw [if_neg (not_or.mpr ⟨h1, h2⟩), if_neg h3, if_pos h4]
  · intro h1 h2 h3 h4
    simp only [compare_hebrew]
    rw [if_neg (not_or.mpr ⟨h1, h2⟩), if_neg h3, if_neg h4, if_pos trivial]

/-- Witness for C1: each of the four tiers evaluated at a concrete pair:
empty inputs; identical alephs; aleph-with-point against bare aleph; and two
distinct letters with fuzzy disabled. -/
theorem compare_hebrew_tiers_witness :
    compare_hebrew [] [] true = 0 ∧
    compare_hebrew [0x05D0] [0x05D0] true = 1 ∧
    compare_hebrew [0x05D0, 0x05B0] [0x05D0] true = 9/10 ∧
    compare_hebrew [0x05D0] [0x05D1] false = 0 := by
  refine ⟨?_, ?_, ?_, ?_⟩
  · exact (compare_hebrew_tiers [] [] true).1 (Or.inl rfl)
  · exact (compare_hebrew_tiers [0x05D0] [0x05D0] true).2.1 (by decide) (by decide) rfl
  · exact (compare_hebrew_tiers [0x05D0, 0x05B0] [0x05D0] true).2.2.1 (by decide)
      (by decide) (by decide) (by decide)
  · exact (compare_hebrew_tiers [0x05D0] [0x05D1] false).2.2.2 (by decide) (by decide)
      (by decide) (by decide)

/-- C2: tiers 5 and 6 with fuzzy matching enabled, for inputs that fall past
tiers 1-4: writing s for `1 - distance/max_len`, a zero `max_len` would give
0 (vacuous here, since distinct normalized forms force `max_len > 0`); when
`s < 9/10` and the two matres-lectionis-collapsed forms agree and are
non-empty the score is exactly 85/100; otherwise the score is `s * 7/10`. -/
theorem compare_hebrew_fuzzy_formula (text1 text2 : List Nat)
    (h1 : text1 ≠ []) (h2 : text2 ≠ []) (hne : text1 ≠ text2)
    (hnorm : normalize_hebrew text1 ≠ normalize_hebrew text2) :
    (max (normalize_hebrew text1).length (normalize_hebrew text2).length = 0 →
      compare_hebrew text1 text2 true = 0) ∧
    (max (normalize_hebrew text1).length (normalize_hebrew text2).length ≠ 0 →
      1 - (levenshtein_distance (normalize_hebrew text1) (normalize_hebrew text2) : ℚ) /
          ((max (normalize_hebrew text1).length (normalize_hebrew text2).length : ℕ) : ℚ) <
        9 / 10 →
      remove_matres_lectionis (normalize_hebrew text1) =
        remove_matres_lectionis (normalize_hebrew text2) →
      remove_matres_lectionis (normalize_hebrew text1) ≠ [] →
      compare_hebrew text1 text2 true = 85 / 100) ∧
    (max (normalize_hebrew text1).length (normalize_hebrew text2).length ≠ 0 →
      (¬(1 - (levenshtein_distance (normalize_hebrew text1) (normalize_hebrew text2) : ℚ) /
            ((max (normalize_hebrew text1).length (normalize_hebrew text2).length : ℕ) : ℚ) <
          9 / 10) ∨
        remove_matres_lectionis (normalize_hebrew text1) ≠
          remove_matres_lectionis (normalize_hebrew text2) ∨
        remove_matres_lectionis (normalize_hebrew text1) = []) →
      compare_hebrew text1 text2 true =
        (1 - (levenshtein_distance (normalize_hebrew text1) (normalize_hebrew text2) : ℚ) /
            ((max (normalize_hebrew text1).length (normalize_hebrew text2).length : ℕ) : ℚ)) *
          (7 / 10)) := by
  have hg1 : ¬(text1 = [] ∨ text2 = []) := not_or.mpr ⟨h1, h2⟩
  refine ⟨?_, ?_, ?_⟩
  · intro hm
    exfalso
    rw [Nat.max_eq_zero_iff] at hm
    obtain ⟨ha, hb⟩ := hm
    rw [List.length_eq_zero] at ha hb
    exact hnorm (ha.trans hb.symm)
  · intro hm hs hml hmlne
    simp only [compare_hebrew]
    rw [if_neg hg1, if_neg hne, if_neg hnorm, if_neg (by simp : ¬(true = false)),
      if_neg hm, if_pos hs, if_pos ⟨hml, List.length_pos.mpr hmlne⟩]
  · intro hm hcase
    simp only [compare_hebrew]
    rw [if_neg hg1, if_neg hne, if_neg hnorm, if_neg (by simp : ¬(true = false)),
      if_neg hm]
    rcases hcase with hs | hml | hml
    · rw [if_neg hs]
    · split_ifs with hs' hcond
      · exact absurd hcond.1 hml
      · rfl
      · rfl
    · split_ifs with hs' hcond
      · exfalso
        rw [hml] at hcond
        simp at hcond
      · rfl
      · rfl

/-- Witness for C2: a plene/defective pair (aleph-vav-vav against aleph-vav)
hits the 85/100 spelling-variant branch; all hypotheses discharged by
evaluation. -/
theorem compare_hebrew_fuzzy_formula_witness :
    compare_hebrew [0x05D0, 0x05D5, 0x05D5] [0x05D0, 0x05D5] true = 85 / 100 := by
  have e1 : levenshtein_distance (normalize_hebrew [0x05D0, 0x05D5, 0x05D5])
      (normalize_hebrew [0x05D0, 0x05D5]) = 1 := by decide
  have e2 : max (normalize_hebrew [0x05D0, 0x05D5, 0x05D5]).length
      (normalize_hebrew [0x05D0, 0x05D5]).length = 3 := by decide
  exact (compare_hebrew_fuzzy_formula [0x05D0, 0x05D5, 0x05D5] [0x05D0, 0x05D5]
    (by decide) (by decide) (by decide) (by decide)).2.1
    (by decide) (by rw [e1, e2]; norm_num) (by decide) (by decide)

lemma compare_fuzzy_false_zero {a b : List Nat} (h1 : a ≠ []) (h2 : b ≠ [])
    (hab : a ≠ b) (hn : normalize_hebrew a ≠ normalize_hebrew b) :
    compare_hebrew a b false = 0 := by
  simp only [compare_hebrew]
  rw [if_neg (not_or.mpr ⟨h1, h2⟩), if_neg hab, if_neg hn, if_pos trivial]

/-- C6: the comparison is symmetric in its two string arguments for either
value of the fuzzy flag, with the default weights. -/
theorem compare_hebrew_symm (a b : List Nat) (fuzzy : Bool) :
    compare_hebrew a b fuzzy = compare_hebrew b a fuzzy := by
  by_cases h1 : a = []
  · simp only [compare_hebrew]
    rw [if_pos (Or.inl h1), if_pos (Or.inr h1)]
  · by_cases h2 : b = []
    · simp only [compare_hebrew]
      rw [if_pos (Or.inr h2), if_pos (Or.inl h2)]
    · by_cases hab : a = b
      · subst hab; rfl
      · have hba : b ≠ a := fun h => hab h.symm
        by_cases hn : normalize_hebrew a = normalize_hebrew b
        · simp only [compare_hebrew]
          rw [if_neg (not_or.mpr ⟨h1, h2⟩), if_neg (not_or.mpr ⟨h2, h1⟩),
            if_neg hab, if_neg hba, if_pos hn, if_pos hn.symm]
        · have hn' : normalize_hebrew b ≠ normalize_hebrew a := fun h => hn h.symm
          cases fuzzy with
          | false =>
            rw [compare_fuzzy_false_zero h1 h2 hab hn,
              compare_fuzzy_false_zero h2 h1 hba hn']
          | true =>
            simp only [compare_hebrew]
            rw [if_neg (not_or.mpr ⟨h1, h2⟩), if_neg (not_or.mpr ⟨h2, h1⟩),
              if_neg hab, if_neg hba, if_neg hn, if_neg hn',
              if_neg (by simp : ¬(true = false)), if_neg (by simp : ¬(true = false))]
            have hmax : max (normalize_hebrew b).length (normalize_hebrew a).length =
                max (normalize_hebrew a).length (normalize_hebrew b).length :=
              Nat.max_comm _ _
            have hld : levenshtein_distance (normalize_hebrew b) (normalize_hebrew a) =
                levenshtein_distance (normalize_hebrew a) (normalize_hebrew b) :=
              levenshtein_distance_comm _ _
            rw [hmax, hld]
            have hcond : (remove_matres_lectionis (normalize_hebrew b) =
                  remove_matres_lectionis (normalize_hebrew a) ∧
                0 < (remove_matres_lectionis (normalize_hebrew b)).length) =
                (remove_matres_lectionis (normalize_hebrew a) =
                  remove_matres_lectionis (normalize_hebrew b) ∧
                0 < (remove_matres_lectionis (normalize_hebrew a)).length) := by
              apply propext
              constructor
              · rintro ⟨he, hl⟩
                refine ⟨he.symm, ?_⟩
                rw [← he]
                exact hl
              · rintro ⟨he, hl⟩
                refine ⟨he.symm, ?_⟩
                rw [he] at hl
                exact hl
            simp only [hcond]

lemma similarity_scaled_range {d m : Nat} (hm : m ≠ 0) (hd : d ≤ m) :
    0 ≤ (1 - (d : ℚ) / (m : ℚ)) * (7 / 10) ∧ (1 - (d : ℚ) / (m : ℚ)) * (7 / 10) ≤ 1 := by
  have hm' : (0 : ℚ) < (m : ℚ) := by exact_mod_cast Nat.pos_of_ne_zero hm
  have h1 : (d : ℚ) / (m : ℚ) ≤ 1 := (div_le_one hm').mpr (by exact_mod_cast hd)
  have h0 : 0 ≤ (d : ℚ) / (m : ℚ) := div_nonneg (by positivity) hm'.le
  constructor <;> nlinarith

/-- C7: the comparison is a total function whose value always lies in the
closed interval from 0 to 1, for any inputs (empty, non-Hebrew, arbitrary)
and either fuzzy setting, with the default weights; the normalizer is
likewise total by construction (it is a function on all code-point lists). -/
theorem compare_hebrew_range (text1 text2 : List Nat) (fuzzy : Bool) :
    0 ≤ compare_hebrew text1 text2 fuzzy ∧ compare_hebrew text1 text2 fuzzy ≤ 1 := by
  simp only [compare_hebrew]
  split_ifs with hg hq hn hf hm hs hml
  · exact ⟨le_rfl, by norm_num⟩
  · exact ⟨by norm_num, le_rfl⟩
  · exact ⟨by norm_num, by norm_num⟩
  · exact ⟨le_rfl, by norm_num⟩
  · exact ⟨le_rfl, by norm_num⟩
  · exact ⟨by norm_num, by norm_num⟩
  · exact similarity_scaled_range hm
      (by rw [levenshtein_distance_eq]; exact lev_le_max _ _)
  · exact similarity_scaled_range hm
      (by rw [levenshtein_distance_eq]; exact lev_le_max _ _)

/-- C10: two distinct non-empty strings that both contain no Hebrew letters
normalize to the same empty form, so the consonantal tier fires and the score
is exactly 9/10 for either fuzzy setting; moreover whenever two normalized
forms differ their maximum length is positive, so the tier-6 guard for
`max_len == 0` can never fire. -/
theorem compare_hebrew_non_hebrew_pair (text1 text2 : List Nat) (fuzzy : Bool)
    (h1 : text1 ≠ []) (h2 : text2 ≠ []) (hne : text1 ≠ text2)
    (hh1 : ∀ c ∈ text1, ¬(0x05D0 ≤ c ∧ c ≤ 0x05EA))
    (hh2 : ∀ c ∈ text2, ¬(0x05D0 ≤ c ∧ c ≤ 0x05EA)) :
    compare_hebrew text1 text2 fuzzy = 9 / 10 ∧
    ∀ u v : List Nat, normalize_hebrew u ≠ normalize_hebrew v →
      0 < max (normalize_hebrew u).length (normalize_hebrew v).length := by
  constructor
  · have hn1 := normalize_eq_nil_of_no_hebrew hh1
    have hn2 := normalize_eq_nil_of_no_hebrew hh2
    simp only [compare_hebrew]
    rw [if_neg (not_or.mpr ⟨h1, h2⟩), if_neg hne, if_pos (hn1.trans hn2.symm)]
  · intro u v huv
    rcases Nat.eq_zero_or_pos
        (max (normalize_hebrew u).length (normalize_hebrew v).length) with h0 | h0
    · exfalso
      rw [Nat.max_eq_zero_iff] at h0
      obtain ⟨ha, hb⟩ := h0
      rw [List.length_eq_zero] at ha hb
      exact huv (ha.trans hb.symm)
    · exact h0

/-- Witness for C10: two distinct single-letter Latin strings score exactly
9/10, with all hypotheses discharged by evaluation. -/
theorem compare_hebrew_non_hebrew_pair_witness :
    compare_hebrew [0x61] [0x62] true = 9 / 10 :=
  (compare_hebrew_non_hebrew_pair [0x61] [0x62] true (by decide) (by decide)
    (by decide) (by decide) (by decide)).1

/-- Run-length encoding: group a string into its maximal runs of equal
adjacent code points, as (character, run-length) pairs.  Specification-side
definition used to state what `remove_matres_lectionis` does to runs. -/
def runs : List Nat → List (Nat × Nat)
  | [] => []
  | a :: rest =>
      match runs rest with
      | [] => [(a, 1)]
      | (b, n) :: rs => if a = b then (a, n + 1) :: rs else (a, 1) :: (b, n) :: rs

/-- Expand a run-length encoding back into a string. -/
def unruns : List (Nat × Nat) → List Nat
  | [] => []
  | (c, n) :: rs => List.replicate n c ++ unruns rs

lemma runs_eq_nil {l : List Nat} : runs l = [] ↔ l = [] := by
  cases l with
  | nil => simp [runs]
  | cons a rest =>
    cases hr : runs rest with
    | nil => simp [runs, hr]
    | cons p rs =>
      obtain ⟨b, n⟩ := p
      simp only [runs, hr]
      split_ifs <;> simp

lemma unruns_runs (l : List Nat) : unruns (runs l) = l := by
  induction l with
  | nil => rfl
  | cons a rest ih =>
    cases hr : runs rest with
    | nil =>
      rw [runs_eq_nil.mp hr]
      simp [runs, unruns]
    | cons p rs =>
      obtain ⟨b, n⟩ := p
      rw [hr] at ih
      simp only [runs, hr]
      split_ifs with hab
      · subst hab
        show List.replicate (n + 1) a ++ unruns rs = a :: rest
        rw [List.replicate_succ, List.cons_append]
        rw [show List.replicate n a ++ unruns rs = unruns ((a, n) :: rs) from rfl, ih]
      · show List.replicate 1 a ++ unruns ((b, n) :: rs) = a :: rest
        rw [ih]
        rfl

lemma runs_pos (l : List Nat) : ∀ p ∈ runs l, 0 < p.2 := by
  induction l with
  | nil => simp [runs]
  | cons a rest ih =>
    cases hr : runs rest with
    | nil => simp [runs, hr]
    | cons p rs =>
      obtain ⟨b, n⟩ := p
      rw [hr] at ih
      simp only [runs, hr]
      split_ifs with hab
      · intro q hq
        rcases List.mem_cons.mp hq with hq | hq
        · subst hq; simp
        · exact ih q (List.mem_cons_of_mem _ hq)
      · intro q hq
        rcases List.mem_cons.mp hq with hq | hq
        · subst hq; simp
        · exact ih q hq

lemma runs_head_eq {a : Nat} {rest : List Nat} {b : Nat} {n : Nat}
    {rs : List (Nat × Nat)} (h : runs (a :: rest) = (b, n) :: rs) : b = a := by
  cases hr : runs rest with
  | nil =>
    simp only [runs, hr] at h
    injection h with h1 _
    injection h1 with h1 _
    exact h1.symm
  | cons q rs' =>
    obtain ⟨c, m⟩ := q
    simp only [runs, hr] at h
    split_ifs at h with hac
    · injection h with h1 _
      injection h1 with h1 _
      exact h1.symm
    · injection h with h1 _
      injection h1 with h1 _
      exact h1.symm

lemma runs_chain (l : List Nat) : (runs l).Chain' (fun p q => p.1 ≠ q.1) := by
  induction l with
  | nil => simp [runs]
  | cons a rest ih =>
    cases hr : runs rest with
    | nil => simp [runs, hr]
    | cons p rs =>
      obtain ⟨b, n⟩ := p
      rw [hr] at ih
      simp only [runs, hr]
      split_ifs with hab
      · subst hab
        exact List.Chain'.cons' ih.tail (by
          intro q hq
          exact (List.chain'_cons'.mp ih).1 q hq)
      · exact List.Chain'.cons' ih (by
          intro q hq
          simp only [List.head?_cons, Option.mem_def, Option.some.injEq] at hq
          subst hq
          simpa using hab)

lemma collapseDoubled_ne_head {c d : Nat} (hdc : d ≠ c) (rest : List Nat) :
    collapseDoubled c (d :: rest) = d :: collapseDoubled c rest := by
  cases rest with
  | nil => rfl
  | cons e rest' =>
    show collapseDoubled c (d :: e :: rest') = _
    simp only [collapseDoubled]
    rw [if_neg (by tauto : ¬(d = c ∧ e = c))]

lemma collapseDoubled_replicate_ne {c d : Nat} (hdc : d ≠ c) (n : Nat)
    (rest : List Nat) :
    collapseDoubled c (List.replicate n d ++ rest) =
      List.replicate n d ++ collapseDoubled c rest := by
  induction n with
  | zero => simp
  | succ n ih =>
    simp only [List.replicate_succ, List.cons_append]
    rw [collapseDoubled_ne_head hdc, ih]

lemma collapseDoubled_replicate_eq (c : Nat) : ∀ (n : Nat) (rest : List Nat),
    (∀ d, rest.head? = some d → d ≠ c) →
    collapseDoubled c (List.replicate n c ++ rest) =
      List.replicate ((n + 1) / 2) c ++ collapseDoubled c rest := by
  intro n
  induction n using Nat.strong_induction_on with
  | _ n ih =>
    match n with
    | 0 => intro rest hrest; simp
    | 1 =>
      intro rest hrest
      simp only [List.replicate_succ, List.replicate_zero, List.nil_append,
        List.cons_append]
      cases rest with
      | nil => rfl
      | cons d rest' =>
        have hd : d ≠ c := hrest d rfl
        show collapseDoubled c (c :: d :: rest') = _
        simp only [collapseDoubled]
        rw [if_neg (by simp [hd] : ¬(True ∧ d = c))]
    | (k + 2) =>
      intro rest hrest
      simp only [List.replicate_succ, List.cons_append]
      show collapseDoubled c (c :: c :: (List.replicate k c ++ rest)) = _
      simp only [collapseDoubled]
      rw [if_pos ⟨trivial, trivial⟩, ih k (by omega) rest hrest]
      have h2 : (k + 2 + 1) / 2 = (k + 1) / 2 + 1 := by omega
      rw [h2, List.replicate_succ, List.cons_append]

lemma head_unruns_ne {c : Nat} {rs : List (Nat × Nat)}
    (hpos : ∀ p ∈ rs, 0 < p.2)
    (hhd : ∀ p, rs.head? = some p → p.1 ≠ c) :
    ∀ d, (unruns rs).head? = some d → d ≠ c := by
  intro d hd
  cases rs with
  | nil => simp [unruns] at hd
  | cons q rs' =>
    obtain ⟨b, m⟩ := q
    have hb : b ≠ c := hhd (b, m) rfl
    have hm : 0 < m := hpos (b, m) (List.mem_cons_self _ _)
    match m, hm with
    | (m' + 1), _ =>
      simp only [unruns, List.replicate_succ, List.cons_append, List.head?_cons,
        Option.some.injEq] at hd
      subst hd
      exact hb

lemma collapseDoubled_unruns (c : Nat) : ∀ (rs : List (Nat × Nat)),
    (∀ p ∈ rs, 0 < p.2) → rs.Chain' (fun p q => p.1 ≠ q.1) →
    collapseDoubled c (unruns rs) =
      unruns (rs.map (fun p => if p.1 = c then (p.1, (p.2 + 1) / 2) else p)) := by
  intro rs
  induction rs with
  | nil => intro _ _; rfl
  | cons p rs ih =>
    intro hpos hchain
    obtain ⟨a, n⟩ := p
    have hpos' : ∀ q ∈ rs, 0 < q.2 := fun q hq => hpos q (List.mem_cons_of_mem _ hq)
    have hchain' : rs.Chain' (fun p q => p.1 ≠ q.1) := hchain.tail
    show collapseDoubled c (List.replicate n a ++ unruns rs) = _
    by_cases hac : a = c
    · subst hac
      have hhd : ∀ q, rs.head? = some q → q.1 ≠ a := fun q hq =>
        Ne.symm ((List.chain'_cons'.mp hchain).1 q hq)
      rw [collapseDoubled_replicate_eq a n (unruns rs) (head_unruns_ne hpos' hhd),
        ih hpos' hchain', List.map_cons]
      have hf : (if (a, n).1 = a then ((a, n).1, ((a, n).2 + 1) / 2) else (a, n)) =
          ((a, (n + 1) / 2) : Nat × Nat) := by simp
      rw [hf]
      rfl
    · rw [collapseDoubled_replicate_ne hac n (unruns rs), ih hpos' hchain',
        List.map_cons]
      have hf : (if (a, n).1 = c then ((a, n).1, ((a, n).2 + 1) / 2) else (a, n)) =
          ((a, n) : Nat × Nat) := by simp [hac]
      rw [hf]
      rfl

lemma map_collapse_pos {c : Nat} {rs : List (Nat × Nat)} (hpos : ∀ p ∈ rs, 0 < p.2) :
    ∀ p ∈ rs.map (fun p => if p.1 = c then (p.1, (p.2 + 1) / 2) else p), 0 < p.2 := by
  intro p hp
  obtain ⟨q, hq, rfl⟩ := List.mem_map.mp hp
  have hq' := hpos q hq
  by_cases h : q.1 = c <;> simp [h] <;> omega

lemma map_collapse_fst (c : Nat) (p : Nat × Nat) :
    (if p.1 = c then (p.1, (p.2 + 1) / 2) else p).1 = p.1 := by
  split_ifs <;> rfl

lemma map_collapse_chain {c : Nat} {rs : List (Nat × Nat)}
    (hchain : rs.Chain' (fun p q => p.1 ≠ q.1)) :
    (rs.map (fun p => if p.1 = c then (p.1, (p.2 + 1) / 2) else p)).Chain'
      (fun p q => p.1 ≠ q.1) := by
  rw [List.chain'_map]
  refine hchain.imp ?_
  intro p q h
  simpa only [map_collapse_fst] using h

/-- C9 (corrected): the claim that runs of any length other than two are left
unchanged is false; `re.sub` collapses non-overlapping pairs left to right,
so a run of three vavs becomes two, not three. -/
theorem remove_matres_lectionis_counterexample :
    remove_matres_lectionis [0x05D5, 0x05D5, 0x05D5] = [0x05D5, 0x05D5] ∧
    remove_matres_lectionis [0x05D5, 0x05D5, 0x05D5] ≠ [0x05D5, 0x05D5, 0x05D5] := by
  decide

/-- C9 (amended): `remove_matres_lectionis` acts on the run-length
decomposition of its input by replacing every maximal run of `n` consecutive
vavs (0x05D5) or yods (0x05D9) with `(n + 1) / 2` copies (so a doubled
letter collapses to one, a tripled letter to two, and so on), leaving every
other character and run untouched; `runs`/`unruns` is the run-length
decomposition, with `unruns (runs x) = x`. -/
theorem remove_matres_lectionis_runs (x : List Nat) :
    unruns (runs x) = x ∧
    remove_matres_lectionis x =
      unruns ((runs x).map (fun p =>
        if p.1 = 0x05D5 ∨ p.1 = 0x05D9 then (p.1, (p.2 + 1) / 2) else p)) := by
  refine ⟨unruns_runs x, ?_⟩
  unfold remove_matres_lectionis
  have h1 : collapseDoubled 0x05D5 x =
      unruns ((runs x).map (fun p => if p.1 = 0x05D5 then (p.1, (p.2 + 1) / 2) else p)) := by
    conv_lhs => rw [← unruns_runs x]
    exact collapseDoubled_unruns 0x05D5 (runs x) (runs_pos x) (runs_chain x)
  rw [h1, collapseDoubled_unruns 0x05D9 _ (map_collapse_pos (runs_pos x))
    (map_collapse_chain (runs_chain x)), List.map_map]
  congr 1
  apply List.map_congr_left
  intro p _
  by_cases h5 : p.1 = 0x05D5
  · simp [Function.comp, h5]
  · by_cases h9 : p.1 = 0x05D9
    · simp [Function.comp, h5, h9]
    · simp [Function.comp, h5, h9]

/-- One step of the inner scoring loop of `create_complete_bhsa_to_strongs`
(create_complete_bhsa_mapping.py lines 92-103): score the query against one
reference entry and replace the best candidate only when the score strictly
exceeds `best_score` (which starts at 0 with `best_match = None`).  A
candidate records the Strong's id, the score, and the method tag, modelled
as a Bool that is true for `fuzzy_match` (score below 9/10) and false for
`consonantal_match`. -/
def coverageStep (query : List Nat) (acc : Option (Nat × ℚ × Bool) × ℚ)
    (ref : Nat × List Nat) : Option (Nat × ℚ × Bool) × ℚ :=
  let score := compare_hebrew query ref.2
  if acc.2 < score then (some (ref.1, score, decide (score < 9 / 10)), score) else acc

/-- The inner loop over all Strong's entries for one unmatched lexeme
(lines 89-103), starting from `best_match = None`, `best_score = 0`. -/
def findBestMatch (query : List Nat) (refs : List (Nat × List Nat)) :
    Option (Nat × ℚ × Bool) × ℚ :=
  refs.foldl (coverageStep query) (none, 0)

/-- The final coverage pass (lines 85-111): each still-unmatched corpus form,
given as a (vocalized key, normalized form) pair, is appended to the mapping
only when `best_match` is not `None` (the source's `if best_match:` guard). -/
def coveragePass (unmatched : List (List Nat × List Nat))
    (refs : List (Nat × List Nat)) : List (List Nat × (Nat × ℚ × Bool)) :=
  unmatched.foldl (fun acc item =>
    match (findBestMatch item.2 refs).1 with
    | some bm => acc ++ [(item.1, bm)]
    | none => acc) []

/-- C8: failing input for the total-coverage claim.  The corpus form "abc"
normalizes to the empty string, so `compare_hebrew` returns 0 against every
reference entry; since the loop only updates on a score strictly greater
than the initial `best_score = 0`, `best_match` stays `None` and the
`if best_match:` guard drops the form: the resulting mapping is empty even
though the reference dictionary is non-empty, so coverage is below 100%. -/
theorem coverage_pass_gap :
    normalize_hebrew [0x61, 0x62, 0x63] = [] ∧
    ([(1, [0x05D0])] : List (Nat × List Nat)) ≠ [] ∧
    coveragePass [([0x61, 0x62, 0x63], normalize_hebrew [0x61, 0x62, 0x63])]
      [(1, [0x05D0])] = [] := by
  refine ⟨by decide, by decide, ?_⟩
  decide
